import Mathlib

/-!
Verification of the embedding-classifier pipeline of the Day-2 notebook
(`day-2-classifying-embedding-with-pytorch.ipynb`).

The Python code is shallowly embedded: DataFrames become lists of records,
tensors become functions out of `Fin`, the mutable training loop becomes
explicit state passing, and fallible pandas operations return `Except`.
Machine floats are idealised as `ℚ` (and `ℝ` where `exp` is needed),
matching the intent stated in the spec (logits are unbounded reals).
-/

/- ## Section 1: text cleaning (`preprocess_newsgroup_row`)

The notebook cleans each raw post with
  `text = f"{msg['Subject']}\n\n{msg.get_payload()}"`
  `text = re.sub(r"[\w\.-]+@[\w\.-]+", "", text)`
  `text = text[:5000]`
The e-mail header parsing (`email.message_from_string`) is a standard-library
collaborator; we take its two outputs (subject and payload) as the inputs of
the embedded cleaner. -/

/-- Membership in the regex character class `[\w.-]` (ASCII reading of
Python `\w` = letters, digits, underscore, plus the literal dot and dash).
Note that `@` itself is not in the class. -/
def isW (c : Char) : Bool :=
  c.isAlpha || c.isDigit || c = '_' || c = '.' || c = '-'

/-- One attempted regex match of `[\w.-]+@[\w.-]+` anchored at the head of
`l`, as Python's engine performs it: the first `[\w.-]+` is the maximal run
of class characters (no backtracking can help, since shortening the run
would place a class character where the `@` must be), then a literal `@`,
then a second maximal run.  On success, returns the remainder of the string
after the match (where `re.sub` resumes scanning). -/
def matchEmailAt (l : List Char) : Option (List Char) :=
  if (l.takeWhile isW).isEmpty then none
  else
    match l.dropWhile isW with
    | '@' :: a2 => if (a2.takeWhile isW).isEmpty then none else some (a2.dropWhile isW)
    | _ => none

theorem matchEmailAt_some_length {l rem : List Char}
    (h : matchEmailAt l = some rem) : rem.length < l.length := by
  unfold matchEmailAt at h
  split at h
  · exact absurd h (by simp)
  · rename_i hne
    revert h
    split
    · rename_i a2 hdrop
      split
      · intro h; exact absurd h (by simp)
      · intro h
        have hrem : rem = a2.dropWhile isW := by
          simpa using h.symm
        have h1 : rem.length ≤ a2.length := by
          rw [hrem]; exact (List.dropWhile_sublist _).length_le
        have h2 : l = l.takeWhile isW ++ ('@' :: a2) := by
          rw [← hdrop, List.takeWhile_append_dropWhile]
        have h3 : 1 ≤ (l.takeWhile isW).length := by
          cases hT : l.takeWhile isW with
          | nil => simp [hT] at hne
          | cons x xs => simp
        have h4 := congrArg List.length h2
        simp only [List.length_append, List.length_cons] at h4
        omega
    · intro h; exact absurd h (by simp)

/-- The embedded `re.sub(r"[\w\.-]+@[\w\.-]+", "", text)`: scan left to
right; at each position either remove a match starting there (resuming after
its end, as `re.sub` does for non-overlapping matches) or keep the character. -/
def removeEmails : List Char → List Char
  | [] => []
  | c :: rest =>
    match h : matchEmailAt (c :: rest) with
    | some rem => removeEmails rem
    | none => c :: removeEmails rest
termination_by l => l.length
decreasing_by
  · exact matchEmailAt_some_length h
  · simp

theorem removeEmails_cons_of_none {c : Char} {t : List Char}
    (hm : matchEmailAt (c :: t) = none) :
    removeEmails (c :: t) = c :: removeEmails t := by
  rw [removeEmails]
  split
  · rename_i rem hr; rw [hm] at hr; exact absurd hr (by simp)
  · rfl

theorem removeEmails_of_some {c : Char} {t rem : List Char}
    (hm : matchEmailAt (c :: t) = some rem) :
    removeEmails (c :: t) = removeEmails rem := by
  rw [removeEmails]
  split
  · rename_i rem2 hr; rw [hm] at hr
    simp only [Option.some.injEq] at hr
    rw [hr]
  · rename_i hr; rw [hm] at hr; exact absurd hr (by simp)

theorem matchEmailAt_cons_none {c : Char} (t : List Char) (hc : isW c = false) :
    matchEmailAt (c :: t) = none := by
  unfold matchEmailAt
  simp [List.takeWhile, hc]

theorem removeEmails_cons_of_not_isW {c : Char} (t : List Char) (hc : isW c = false) :
    removeEmails (c :: t) = c :: removeEmails t :=
  removeEmails_cons_of_none (matchEmailAt_cons_none t hc)

theorem matchEmailAt_cons_cons {c d : Char} (t : List Char) (hc : isW c = true)
    (hd : isW d = true) : matchEmailAt (c :: d :: t) = matchEmailAt (d :: t) := by
  unfold matchEmailAt
  simp [List.takeWhile, List.dropWhile, hc, hd]

/-- A position at which the pattern `[\w.-]+@[\w.-]+` occurs: a class
character, a literal `@`, and a class character in immediate succession.
A string contains a substring matching the pattern iff such a triple
occurs somewhere in it. -/
def headTriple (a : Char) : List Char → Bool
  | b :: c :: _ => isW a && b == '@' && isW c
  | _ => false

/-- Whether an email-like substring (in the sense of the redaction regex)
occurs anywhere in the string. -/
def hasEmail : List Char → Bool
  | [] => false
  | a :: t => headTriple a t || hasEmail t

theorem headTriple_of_not_isW {a : Char} (t : List Char) (ha : isW a = false) :
    headTriple a t = false := by
  cases t with
  | nil => rfl
  | cons b u => cases u with
    | nil => rfl
    | cons c v => simp [headTriple, ha]

theorem headTriple_of_head_not_at {a b : Char} (u : List Char) (hb : (b == '@') = false) :
    headTriple a (b :: u) = false := by
  cases u with
  | nil => rfl
  | cons c v => simp [headTriple, hb]

theorem headTriple_of_second_not_isW {a b c : Char} (v : List Char) (hc : isW c = false) :
    headTriple a (b :: c :: v) = false := by
  simp [headTriple, hc]

theorem isW_at : isW '@' = false := by decide

theorem removeEmails_nil : removeEmails [] = [] := by rw [removeEmails]

theorem hasEmail_removeEmails (l : List Char) : hasEmail (removeEmails l) = false := by
  induction l using removeEmails.induct with
  | case1 => rw [removeEmails_nil]; rfl
  | case2 c rest rem hm ih =>
    rw [removeEmails_of_some hm]; exact ih
  | case3 c rest hm ih =>
    rw [removeEmails_cons_of_none hm]
    show (headTriple c (removeEmails rest) || hasEmail (removeEmails rest)) = false
    rw [ih, Bool.or_false]
    by_cases hc : isW c = true
    · cases rest with
      | nil => rw [removeEmails_nil]; rfl
      | cons d t =>
        by_cases hd : isW d = true
        · have hm2 : matchEmailAt (d :: t) = none := by
            rw [← matchEmailAt_cons_cons t hc hd]; exact hm
          rw [removeEmails_cons_of_none hm2]
          apply headTriple_of_head_not_at
          rw [beq_eq_false_iff_ne]
          intro hEq; rw [hEq] at hd; rw [isW_at] at hd; exact Bool.false_ne_true hd
        · have hd2 : isW d = false := by simpa using hd
          by_cases hat : d = '@'
          · subst hat
            have hT : (t.takeWhile isW).isEmpty = true := by
              unfold matchEmailAt at hm
              simp only [List.takeWhile, List.dropWhile, hc, isW_at] at hm
              by_contra hC
              simp [hC] at hm
            rw [removeEmails_cons_of_not_isW t hd2]
            cases t with
            | nil => rw [removeEmails_nil]; rfl
            | cons e u =>
              have he : isW e = false := by
                simp only [List.takeWhile] at hT
                by_contra hC
                simp only [Bool.not_eq_false] at hC
                rw [hC] at hT
                simp at hT
              rw [removeEmails_cons_of_not_isW u he]
              exact headTriple_of_second_not_isW _ he
          · rw [removeEmails_cons_of_not_isW t hd2]
            apply headTriple_of_head_not_at
            rw [beq_eq_false_iff_ne]; exact hat
    · exact headTriple_of_not_isW _ (by simpa using hc)

theorem headTriple_take {a : Char} {t : List Char} (m : ℕ) (h : headTriple a t = false) :
    headTriple a (t.take m) = false := by
  cases t with
  | nil => rw [List.take_nil]; exact h
  | cons b u =>
    cases m with
    | zero => rfl
    | succ m1 =>
      cases u with
      | nil => cases m1 <;> rfl
      | cons c v =>
        cases m1 with
        | zero => rfl
        | succ m2 =>
          simp only [List.take_succ_cons]
          simp only [headTriple] at h ⊢
          exact h

theorem hasEmail_take {l : List Char} (h : hasEmail l = false) (n : ℕ) :
    hasEmail (l.take n) = false := by
  induction l generalizing n with
  | nil => rw [List.take_nil]; rfl
  | cons a t ih =>
    cases n with
    | zero => rfl
    | succ m =>
      rw [List.take_succ_cons]
      show (headTriple a (t.take m) || hasEmail (t.take m)) = false
      have h2 : (headTriple a t || hasEmail t) = false := h
      simp only [Bool.or_eq_false_iff] at h2
      rw [headTriple_take m h2.1, ih h2.2, Bool.or_false]

/-- Embedded `preprocess_newsgroup_row`: format subject and body as
`f"{subject}\n\n{payload}"`, redact e-mail-like substrings, truncate to
5000 characters.  The two arguments are the outputs of the standard-library
e-mail header parse (`msg['Subject']` and `msg.get_payload()`). -/
def preprocess_newsgroup_row (subject payload : List Char) : List Char :=
  (removeEmails (subject ++ '\n' :: '\n' :: payload)).take 5000

/-- C7: for every raw document (any subject and payload), the cleaned text
returned by `preprocess_newsgroup_row` contains no email-like substring:
no occurrence of one or more `[\w.-]` characters, then `@`, then one or
more `[\w.-]` characters, remains in the output. -/
theorem preprocess_no_email_remains (subject payload : List Char) :
    hasEmail (preprocess_newsgroup_row subject payload) = false :=
  hasEmail_take (hasEmail_removeEmails _) 5000

/-- C10: for every raw document, the cleaned text returned by
`preprocess_newsgroup_row` has length at most 5000 characters (the cleaner
truncates the subject-plus-body text after redaction). -/
theorem preprocess_length_le_5000 (subject payload : List Char) :
    (preprocess_newsgroup_row subject payload).length ≤ 5000 := by
  unfold preprocess_newsgroup_row
  exact List.length_take_le 5000 (removeEmails (subject ++ '\n' :: '\n' :: payload))

/- ## Section 2: balanced sampling (`sample_data`)

The notebook builds a DataFrame with columns `Text`, `Label`, `Class Name`
(`preprocess_newsgroup_data`), then
  1. samples `num_samples` rows from each `Label` group
     (`df.groupby("Label")[df.columns].apply(lambda x: x.sample(num_samples))`);
     pandas raises `ValueError` when a group holds fewer than `num_samples`
     rows, and pandas `groupby` visits the group keys in ascending order;
  2. keeps only the rows whose `Class Name` contains `classes_to_keep`
     (`df["Class Name"].str.contains(...)`; the notebook passes the plain
     word `"sci"`, for which the regex reads as substring containment);
  3. re-encodes labels densely via `astype("category").cat.codes`, whose
     categories are the distinct retained class names in ascending order
     and whose code is the index into that sorted list.
Which rows `x.sample` picks is random; the embedding takes the first
`num_samples` rows of the group, which realises one admissible draw (all
claims below depend only on how many rows come from each group, never on
which ones). -/

/-- A row of the preprocessed DataFrame (columns `Text`, `Label`, `Class Name`). -/
structure Row where
  Text : String
  Label : ℕ
  ClassName : String
deriving DecidableEq, Repr

/-- A row of the DataFrame returned by `sample_data` (adds `Encoded Label`). -/
structure ERow where
  Text : String
  Label : ℕ
  ClassName : String
  EncodedLabel : ℕ
deriving DecidableEq, Repr

def startsWithB : List Char → List Char → Bool
  | [], _ => true
  | _ :: _, [] => false
  | p :: ps, c :: cs => p == c && startsWithB ps cs

/-- Substring containment of `pat` in the second argument. -/
def hasSubstr (pat : List Char) : List Char → Bool
  | [] => startsWithB pat []
  | c :: t => startsWithB pat (c :: t) || hasSubstr pat t

/-- The `df["Class Name"].str.contains(classes_to_keep)` test for a pattern
without regex metacharacters. -/
def strContainsPat (s pat : String) : Bool := hasSubstr pat.toList s.toList

/-- The distinct labels of the DataFrame in ascending order: the group keys
visited by `df.groupby("Label")`. -/
def sortedLabels (df : List Row) : List ℕ :=
  List.insertionSort (fun a b => a ≤ b) (df.map Row.Label).dedup

/-- The rows of one `groupby("Label")` group. -/
def groupOf (df : List Row) (l : ℕ) : List Row :=
  df.filter (fun r => r.Label == l)

/-- The groupwise `x.sample(num_samples)` step, group keys in ascending
order, results concatenated; `Except.error` models the `ValueError` that
`DataFrame.sample` raises when a group is smaller than `num_samples`. -/
def sampleGroups (num_samples : ℕ) (df : List Row) : List ℕ → Except String (List Row)
  | [] => Except.ok []
  | l :: ls =>
    let g := groupOf df l
    if g.length < num_samples then
      Except.error "Cannot take a larger sample than population when replace is False"
    else do
      let rest ← sampleGroups num_samples df ls
      Except.ok (g.take num_samples ++ rest)

/-- The category list of `astype("category")`: distinct values in ascending
order. -/
def sortedCategories (names : List String) : List String :=
  List.insertionSort (fun a b => a ≤ b) names.dedup

/-- Embedded `sample_data`: balanced groupwise sampling, class-name filter,
dense re-encoding via categorical codes. -/
def sample_data (df : List Row) (num_samples : ℕ) (classes_to_keep : String) :
    Except String (List ERow) := do
  let sampled ← sampleGroups num_samples df (sortedLabels df)
  let kept := sampled.filter (fun r => strContainsPat r.ClassName classes_to_keep)
  let cats := sortedCategories (kept.map Row.ClassName)
  Except.ok (kept.map (fun r =>
    { Text := r.Text, Label := r.Label, ClassName := r.ClassName,
      EncodedLabel := cats.indexOf r.ClassName }))

theorem mem_sortedLabels {df : List Row} {r : Row} (hr : r ∈ df) :
    r.Label ∈ sortedLabels df := by
  unfold sortedLabels
  rw [(List.perm_insertionSort _ _).mem_iff, List.mem_dedup]
  exact List.mem_map_of_mem Row.Label hr

theorem sampleGroups_error_of_undersized {df : List Row} {n : ℕ} {l : ℕ}
    {ls : List ℕ} (hl : l ∈ ls) (hsmall : (groupOf df l).length < n) :
    ∃ msg, sampleGroups n df ls = Except.error msg := by
  induction ls with
  | nil => exact absurd hl (List.not_mem_nil l)
  | cons l2 ls2 ih =>
    by_cases h2 : (groupOf df l2).length < n
    · refine ⟨"Cannot take a larger sample than population when replace is False", ?_⟩
      unfold sampleGroups; simp [h2]
    · rcases List.mem_cons.mp hl with hEq | hMem
      · rw [← hEq] at h2; exact absurd hsmall h2
      · rcases ih hMem with ⟨msg, hmsg⟩
        refine ⟨msg, ?_⟩
        unfold sampleGroups
        simp only [h2, if_false, hmsg]
        rfl

/-- C4: for every input DataFrame and per-class count, if some class present
in the DataFrame has fewer than `n` documents, `sample_data` fails loudly
(the `ValueError` of `DataFrame.sample` propagates) rather than silently
under-sampling. -/
theorem sample_data_error_of_undersized {df : List Row} {n : ℕ} (pat : String)
    {r : Row} (hr : r ∈ df) (hsmall : (groupOf df r.Label).length < n) :
    ∃ msg, sample_data df n pat = Except.error msg := by
  rcases sampleGroups_error_of_undersized (mem_sortedLabels hr) hsmall with ⟨msg, hmsg⟩
  refine ⟨msg, ?_⟩
  unfold sample_data
  rw [hmsg]
  rfl

def dfW : List Row := [⟨"a", 0, "sci.med"⟩]

/-- Witness for C4: a DataFrame with a single one-row class and a request of
two samples per class makes `sample_data` raise. -/
theorem sample_data_error_of_undersized_witness :
    (⟨"a", 0, "sci.med"⟩ : Row) ∈ dfW ∧ (groupOf dfW 0).length < 2 ∧
      ∃ msg, sample_data dfW 2 "sci" = Except.error msg :=
  ⟨by decide, by decide, sample_data_error_of_undersized "sci" (r := ⟨"a", 0, "sci.med"⟩)
    (by decide) (by decide)⟩

/- ### C1: balanced-sampling correctness

The claim quantifies over DataFrames in which "classes" are meaningful:
in the notebook, `Class Name` is `target_names[Label]`, so class name and
label determine each other.  `ClassConsistent` states exactly that. -/

/-- Class name and label determine each other across the DataFrame (true of
every DataFrame produced by `preprocess_newsgroup_data`, where
`Class Name = target_names[Label]` with distinct target names). -/
def ClassConsistent (df : List Row) : Prop :=
  ∀ r1 ∈ df, ∀ r2 ∈ df, (r1.Label = r2.Label ↔ r1.ClassName = r2.ClassName)

/-- The shared class name of a label group (pandas: the `Class Name` value
of any row of the group). -/
def classOfLabel (df : List Row) (l : ℕ) : String :=
  ((groupOf df l).map Row.ClassName).headD ""

/-- The row filter of step 2 of `sample_data`. -/
def keepRow (pat : String) (r : Row) : Bool := strContainsPat r.ClassName pat

/-- The induced filter on label groups. -/
def keepLabel (df : List Row) (pat : String) (l : ℕ) : Bool :=
  strContainsPat (classOfLabel df l) pat

/-- The number of the DataFrame's distinct class names that contain the
filter string: the `k` of the claim ("retained classes"). -/
def retainedClassCount (df : List Row) (pat : String) : ℕ :=
  ((df.map Row.ClassName).dedup.filter (fun s => strContainsPat s pat)).length

/-- The concatenation of the per-group samples, in group-key order. -/
def concatSampled (df : List Row) (n : ℕ) : List ℕ → List Row
  | [] => []
  | l :: ls => (groupOf df l).take n ++ concatSampled df n ls

theorem sampleGroups_ok {df : List Row} {n : ℕ} {ls : List ℕ}
    (h : ∀ l ∈ ls, n ≤ (groupOf df l).length) :
    sampleGroups n df ls = Except.ok (concatSampled df n ls) := by
  induction ls with
  | nil => rfl
  | cons l ls ih =>
    have h1 : ¬(groupOf df l).length < n := Nat.not_lt.mpr (h l (List.mem_cons_self l ls))
    have h2 := ih (fun l2 hl2 => h l2 (List.mem_cons_of_mem l hl2))
    unfold sampleGroups
    simp only [h1, if_false, h2]
    rfl

theorem mem_group_iff {df : List Row} {l : ℕ} {r : Row} :
    r ∈ groupOf df l ↔ r ∈ df ∧ r.Label = l := by
  unfold groupOf
  rw [List.mem_filter]
  simp

theorem mem_concatSampled {df : List Row} {n : ℕ} {ls : List ℕ} {r : Row} :
    r ∈ concatSampled df n ls ↔ ∃ l ∈ ls, r ∈ (groupOf df l).take n := by
  induction ls with
  | nil => simp [concatSampled]
  | cons l ls ih =>
    unfold concatSampled
    rw [List.mem_append, ih]
    simp

theorem className_eq_classOfLabel {df : List Row} (hcls : ClassConsistent df)
    {l : ℕ} {r : Row} (hr : r ∈ groupOf df l) : r.ClassName = classOfLabel df l := by
  unfold classOfLabel
  cases hG : groupOf df l with
  | nil => rw [hG] at hr; exact absurd hr (List.not_mem_nil r)
  | cons r0 g =>
    have hr0 : r0 ∈ groupOf df l := by rw [hG]; exact List.mem_cons_self r0 g
    rcases mem_group_iff.mp hr with ⟨hrdf, hrl⟩
    rcases mem_group_iff.mp hr0 with ⟨hr0df, hr0l⟩
    have : r.ClassName = r0.ClassName :=
      (hcls r hrdf r0 hr0df).mp (by rw [hrl, hr0l])
    rw [this]
    rfl

theorem kept_length {df : List Row} {n : ℕ} {pat : String} {ls : List ℕ}
    (hcls : ClassConsistent df) (h : ∀ l ∈ ls, n ≤ (groupOf df l).length) :
    ((concatSampled df n ls).filter (keepRow pat)).length
      = n * (ls.filter (keepLabel df pat)).length := by
  induction ls with
  | nil => rfl
  | cons l ls ih =>
    have hn : n ≤ (groupOf df l).length := h l (List.mem_cons_self l ls)
    have ihr := ih (fun l2 hl2 => h l2 (List.mem_cons_of_mem l hl2))
    have hclseq : ∀ r ∈ (groupOf df l).take n, keepRow pat r = keepLabel df pat l := by
      intro r hr
      unfold keepRow keepLabel
      rw [className_eq_classOfLabel hcls (List.mem_of_mem_take hr)]
    unfold concatSampled
    rw [List.filter_append, List.length_append, ihr]
    by_cases hq : keepLabel df pat l = true
    · have : ((groupOf df l).take n).filter (keepRow pat) = (groupOf df l).take n :=
        List.filter_eq_self.mpr (fun r hr => by rw [hclseq r hr, hq])
      rw [this, List.length_take, List.filter_cons_of_pos hq, List.length_cons,
        Nat.min_eq_left hn, Nat.mul_succ]
      ring
    · have hq2 : keepLabel df pat l = false := by simpa using hq
      have : ((groupOf df l).take n).filter (keepRow pat) = [] :=
        List.filter_eq_nil_iff.mpr (fun r hr => by rw [hclseq r hr, hq2]; simp)
      rw [this, List.filter_cons_of_neg (by simp [hq2])]
      simp

theorem toFinset_dedup_eq (l : List String) : l.dedup.toFinset = l.toFinset :=
  Finset.ext fun a => by simp [List.mem_toFinset, List.mem_dedup]

theorem mem_sortedLabels_iff {df : List Row} {l : ℕ} :
    l ∈ sortedLabels df ↔ ∃ r ∈ df, r.Label = l := by
  unfold sortedLabels
  rw [(List.perm_insertionSort _ _).mem_iff, List.mem_dedup, List.mem_map]

theorem sortedLabels_nodup (df : List Row) : (sortedLabels df).Nodup :=
  ((List.perm_insertionSort _ _).nodup_iff).mpr (List.nodup_dedup _)

/-- The rows surviving steps 1 and 2 of `sample_data`. -/
def keptRows (df : List Row) (n : ℕ) (pat : String) : List Row :=
  (concatSampled df n (sortedLabels df)).filter (keepRow pat)

/-- The category list computed in step 3 of `sample_data`. -/
def catsOf (df : List Row) (n : ℕ) (pat : String) : List String :=
  sortedCategories ((keptRows df n pat).map Row.ClassName)

/-- The row constructor of the returned DataFrame. -/
def encodeRow (cats : List String) (r : Row) : ERow :=
  { Text := r.Text, Label := r.Label, ClassName := r.ClassName,
    EncodedLabel := cats.indexOf r.ClassName }

theorem sample_data_ok {df : List Row} {n : ℕ} {pat : String}
    (h : ∀ l ∈ sortedLabels df, n ≤ (groupOf df l).length) :
    sample_data df n pat
      = Except.ok ((keptRows df n pat).map (encodeRow (catsOf df n pat))) := by
  unfold sample_data
  rw [sampleGroups_ok h]
  rfl

theorem exists_kept_rep {df : List Row} {n : ℕ} (hn : 1 ≤ n)
    {l : ℕ} (hl : l ∈ sortedLabels df)
    (hcount : ∀ r ∈ df, n ≤ (groupOf df r.Label).length) :
    ∃ r1, r1 ∈ (groupOf df l).take n ∧ r1 ∈ groupOf df l := by
  rcases mem_sortedLabels_iff.mp hl with ⟨r0, hr0df, hr0l⟩
  have hlen : n ≤ (groupOf df l).length := by rw [← hr0l]; exact hcount r0 hr0df
  have hpos : 0 < ((groupOf df l).take n).length := by
    rw [List.length_take]
    exact lt_min (by omega) (by omega)
  rcases List.exists_mem_of_length_pos hpos with ⟨r1, hr1⟩
  exact ⟨r1, hr1, List.mem_of_mem_take hr1⟩

theorem mem_keptRows {df : List Row} {n : ℕ} {pat : String} {r : Row} :
    r ∈ keptRows df n pat ↔
      (∃ l ∈ sortedLabels df, r ∈ (groupOf df l).take n) ∧ keepRow pat r = true := by
  unfold keptRows
  rw [List.mem_filter, mem_concatSampled]

theorem keptRows_subset_df {df : List Row} {n : ℕ} {pat : String} {r : Row}
    (hr : r ∈ keptRows df n pat) : r ∈ df := by
  rcases (mem_keptRows.mp hr).1 with ⟨l, _, htake⟩
  exact (mem_group_iff.mp (List.mem_of_mem_take htake)).1

theorem kept_names_toFinset {df : List Row} {n : ℕ} {pat : String}
    (hn : 1 ≤ n) (hcls : ClassConsistent df)
    (hcount : ∀ r ∈ df, n ≤ (groupOf df r.Label).length) :
    ((keptRows df n pat).map Row.ClassName).toFinset
      = (df.map Row.ClassName).toFinset.filter (fun s => strContainsPat s pat = true) := by
  apply Finset.ext
  intro s
  rw [List.mem_toFinset, Finset.mem_filter, List.mem_toFinset, List.mem_map, List.mem_map]
  constructor
  · rintro ⟨r, hr, rfl⟩
    exact ⟨⟨r, keptRows_subset_df hr, rfl⟩, (mem_keptRows.mp hr).2⟩
  · rintro ⟨⟨r0, hr0df, rfl⟩, hQ⟩
    have hl0 : r0.Label ∈ sortedLabels df := mem_sortedLabels_iff.mpr ⟨r0, hr0df, rfl⟩
    rcases exists_kept_rep hn hl0 hcount with ⟨r1, htake, hgrp⟩
    have hr0grp : r0 ∈ groupOf df r0.Label := mem_group_iff.mpr ⟨hr0df, rfl⟩
    have hCN : r1.ClassName = r0.ClassName := by
      rw [className_eq_classOfLabel hcls hgrp, className_eq_classOfLabel hcls hr0grp]
    refine ⟨r1, mem_keptRows.mpr ⟨⟨r0.Label, hl0, htake⟩, ?_⟩, hCN⟩
    unfold keepRow
    rw [hCN]
    exact hQ

theorem kept_names_dedup_length {df : List Row} {n : ℕ} {pat : String}
    (hn : 1 ≤ n) (hcls : ClassConsistent df)
    (hcount : ∀ r ∈ df, n ≤ (groupOf df r.Label).length) :
    ((keptRows df n pat).map Row.ClassName).dedup.length = retainedClassCount df pat := by
  have h1 : ((keptRows df n pat).map Row.ClassName).dedup.length
      = ((keptRows df n pat).map Row.ClassName).toFinset.card := by
    rw [← toFinset_dedup_eq]
    exact (List.toFinset_card_of_nodup (List.nodup_dedup _)).symm
  have h2 : retainedClassCount df pat
      = ((df.map Row.ClassName).dedup.filter (fun s => strContainsPat s pat)).toFinset.card := by
    unfold retainedClassCount
    exact (List.toFinset_card_of_nodup ((List.nodup_dedup _).filter _)).symm
  rw [h1, h2, List.toFinset_filter, toFinset_dedup_eq, kept_names_toFinset hn hcls hcount]

theorem retained_label_count {df : List Row} {n : ℕ} {pat : String}
    (hn : 1 ≤ n) (hcls : ClassConsistent df)
    (hcount : ∀ r ∈ df, n ≤ (groupOf df r.Label).length) :
    ((sortedLabels df).filter (keepLabel df pat)).length
      = ((keptRows df n pat).map Row.ClassName).toFinset.card := by
  have hnd : ((sortedLabels df).filter (keepLabel df pat)).Nodup :=
    (sortedLabels_nodup df).filter _
  rw [← List.toFinset_card_of_nodup hnd]
  apply Finset.card_bij (fun l _ => classOfLabel df l)
  · intro l hl
    rw [List.mem_toFinset, List.mem_filter] at hl
    obtain ⟨hls, hq⟩ := hl
    rcases exists_kept_rep hn hls hcount with ⟨r1, htake, hgrp⟩
    rw [List.mem_toFinset, List.mem_map]
    refine ⟨r1, mem_keptRows.mpr ⟨⟨l, hls, htake⟩, ?_⟩,
      className_eq_classOfLabel hcls hgrp⟩
    unfold keepRow
    rw [className_eq_classOfLabel hcls hgrp]
    exact hq
  · intro l1 hl1 l2 hl2 heq
    rw [List.mem_toFinset, List.mem_filter] at hl1 hl2
    rcases exists_kept_rep hn hl1.1 hcount with ⟨r1, htk1, hg1⟩
    rcases exists_kept_rep hn hl2.1 hcount with ⟨r2, htk2, hg2⟩
    have hcn : r1.ClassName = r2.ClassName := by
      rw [className_eq_classOfLabel hcls hg1, className_eq_classOfLabel hcls hg2, heq]
    rcases mem_group_iff.mp hg1 with ⟨h1df, h1l⟩
    rcases mem_group_iff.mp hg2 with ⟨h2df, h2l⟩
    rw [← h1l, ← h2l]
    exact (hcls r1 h1df r2 h2df).mpr hcn
  · intro s hs
    rw [List.mem_toFinset, List.mem_map] at hs
    rcases hs with ⟨r, hrk, rfl⟩
    rcases mem_keptRows.mp hrk with ⟨⟨l, hls, htake⟩, hkeep⟩
    have hgrp := List.mem_of_mem_take htake
    refine ⟨l, ?_, (className_eq_classOfLabel hcls hgrp).symm⟩
    rw [List.mem_toFinset, List.mem_filter]
    refine ⟨hls, ?_⟩
    unfold keepLabel
    rw [← className_eq_classOfLabel hcls hgrp]
    exact hkeep

theorem sortedCategories_perm (names : List String) :
    (sortedCategories names).Perm names.dedup :=
  List.perm_insertionSort _ _

theorem sortedCategories_nodup (names : List String) : (sortedCategories names).Nodup :=
  ((sortedCategories_perm names).nodup_iff).mpr (List.nodup_dedup _)

theorem mem_sortedCategories {names : List String} {s : String} :
    s ∈ sortedCategories names ↔ s ∈ names := by
  rw [(sortedCategories_perm names).mem_iff, List.mem_dedup]

theorem sortedCategories_length (names : List String) :
    (sortedCategories names).length = names.dedup.length :=
  (sortedCategories_perm names).length_eq

theorem sortedCategories_pairwise_lt (names : List String) :
    List.Pairwise (· < ·) (sortedCategories names) := by
  have hs : List.Pairwise (fun a b : String => a ≤ b) (sortedCategories names) :=
    List.sorted_insertionSort (fun a b : String => a ≤ b) names.dedup
  have hnd : (sortedCategories names).Nodup := sortedCategories_nodup names
  exact (hs.and hnd).imp (fun hab => lt_of_le_of_ne hab.1 hab.2)

theorem indexOf_lt_iff_of_sorted {l : List String} (hsort : List.Pairwise (· < ·) l)
    {a b : String} (ha : a ∈ l) (hb : b ∈ l) :
    l.indexOf a < l.indexOf b ↔ a < b := by
  have hia := List.indexOf_lt_length.mpr ha
  have hib := List.indexOf_lt_length.mpr hb
  have hget := List.pairwise_iff_get.mp hsort
  constructor
  · intro h
    have h2 := hget ⟨l.indexOf a, hia⟩ ⟨l.indexOf b, hib⟩ (Fin.mk_lt_mk.mpr h)
    simp only [List.get_eq_getElem] at h2
    rw [List.getElem_indexOf hia, List.getElem_indexOf hib] at h2
    exact h2
  · intro h
    rcases Nat.lt_trichotomy (l.indexOf a) (l.indexOf b) with hlt | heq | hgt
    · exact hlt
    · exfalso
      have : a = b := (List.indexOf_inj ha hb).mp heq
      rw [this] at h
      exact lt_irrefl b h
    · exfalso
      have h2 := hget ⟨l.indexOf b, hib⟩ ⟨l.indexOf a, hia⟩ (Fin.mk_lt_mk.mpr hgt)
      simp only [List.get_eq_getElem] at h2
      rw [List.getElem_indexOf hia, List.getElem_indexOf hib] at h2
      exact lt_asymm h2 h

theorem catsOf_length {df : List Row} {n : ℕ} {pat : String}
    (hn : 1 ≤ n) (hcls : ClassConsistent df)
    (hcount : ∀ r ∈ df, n ≤ (groupOf df r.Label).length) :
    (catsOf df n pat).length = retainedClassCount df pat := by
  unfold catsOf
  rw [sortedCategories_length, kept_names_dedup_length hn hcls hcount]

theorem label_filter_length {df : List Row} {n : ℕ} {pat : String}
    (hn : 1 ≤ n) (hcls : ClassConsistent df)
    (hcount : ∀ r ∈ df, n ≤ (groupOf df r.Label).length) :
    ((sortedLabels df).filter (keepLabel df pat)).length = retainedClassCount df pat := by
  rw [retained_label_count hn hcls hcount, ← kept_names_dedup_length hn hcls hcount,
    ← toFinset_dedup_eq]
  exact List.toFinset_card_of_nodup (List.nodup_dedup _)

/-- C1 (amended): for every per-class request of `n ≥ 1` samples over a
DataFrame whose class names and labels determine each other (as
`preprocess_newsgroup_data` guarantees) and in which every class holds at
least `n` documents, `sample_data` succeeds and returns exactly
`n * k` rows, where `k` is the number of retained classes (distinct class
names containing the filter string); the `Encoded Label` column takes
exactly the values `0 .. k-1`, and the dense labels are assigned in sorted
class-name order (the encoding is strictly monotone in the class name). -/
theorem sample_data_balanced {df : List Row} {n : ℕ} {pat : String}
    (hn : 1 ≤ n) (hcls : ClassConsistent df)
    (hcount : ∀ r ∈ df, n ≤ (groupOf df r.Label).length) :
    ∃ out, sample_data df n pat = Except.ok out ∧
      out.length = n * retainedClassCount df pat ∧
      (out.map ERow.EncodedLabel).toFinset = Finset.range (retainedClassCount df pat) ∧
      ∀ r1 ∈ out, ∀ r2 ∈ out,
        (r1.EncodedLabel < r2.EncodedLabel ↔ r1.ClassName < r2.ClassName) := by
  have hcount2 : ∀ l ∈ sortedLabels df, n ≤ (groupOf df l).length := by
    intro l hl
    rcases mem_sortedLabels_iff.mp hl with ⟨r, hr, hrl⟩
    rw [← hrl]
    exact hcount r hr
  refine ⟨_, sample_data_ok hcount2, ?_, ?_, ?_⟩
  · rw [List.length_map]
    show ((concatSampled df n (sortedLabels df)).filter (keepRow pat)).length
      = n * retainedClassCount df pat
    rw [kept_length hcls hcount2, label_filter_length hn hcls hcount]
  · apply Finset.ext
    intro i
    rw [List.map_map, List.mem_toFinset, List.mem_map, Finset.mem_range]
    constructor
    · rintro ⟨r, hr, rfl⟩
      have hmem : r.ClassName ∈ catsOf df n pat :=
        mem_sortedCategories.mpr (List.mem_map_of_mem Row.ClassName hr)
      have hidx := List.indexOf_lt_length.mpr hmem
      rw [catsOf_length hn hcls hcount] at hidx
      exact hidx
    · intro hi
      have hi2 : i < (catsOf df n pat).length := by
        rw [catsOf_length hn hcls hcount]
        exact hi
      have hsmem : (catsOf df n pat)[i] ∈ catsOf df n pat := List.getElem_mem hi2
      have hinmap : (catsOf df n pat)[i] ∈ (keptRows df n pat).map Row.ClassName :=
        mem_sortedCategories.mp hsmem
      rcases List.mem_map.mp hinmap with ⟨r, hr, hcn⟩
      refine ⟨r, hr, ?_⟩
      show (catsOf df n pat).indexOf r.ClassName = i
      rw [hcn]
      exact List.indexOf_getElem (sortedCategories_nodup _) i hi2
  · intro r1 h1 r2 h2
    rcases List.mem_map.mp h1 with ⟨s1, hs1, rfl⟩
    rcases List.mem_map.mp h2 with ⟨s2, hs2, rfl⟩
    show (catsOf df n pat).indexOf s1.ClassName < (catsOf df n pat).indexOf s2.ClassName
      ↔ s1.ClassName < s2.ClassName
    exact indexOf_lt_iff_of_sorted (sortedCategories_pairwise_lt _)
      (mem_sortedCategories.mpr (List.mem_map_of_mem Row.ClassName hs1))
      (mem_sortedCategories.mpr (List.mem_map_of_mem Row.ClassName hs2))

def dfShared : List Row := [⟨"a", 0, "sci.med"⟩, ⟨"b", 1, "sci.med"⟩]

/-- Counterexample to C1 as frozen: in `dfShared` the single class
`sci.med` (so `k = 1`) has two documents (so "each class has at least
`n = 1` documents" holds), yet `sample_data` samples per *label* group
before filtering, returning `2 ≠ n * k = 1` rows: the claim's row-count
guarantee fails when one class name spans two labels.  (With `n = 0` the
claim also fails: the output is empty, so the encoded column does not take
the values `0 .. k-1`.) -/
theorem sample_data_claim_counterexample :
    (∀ r ∈ dfShared, 1 ≤ (dfShared.filter (fun x => x.ClassName == r.ClassName)).length) ∧
    retainedClassCount dfShared "sci" = 1 ∧
    sample_data dfShared 1 "sci"
      = Except.ok [⟨"a", 0, "sci.med", 0⟩, ⟨"b", 1, "sci.med", 0⟩] ∧
    ([(⟨"a", 0, "sci.med", 0⟩ : ERow), ⟨"b", 1, "sci.med", 0⟩].length
      ≠ 1 * retainedClassCount dfShared "sci") :=
  ⟨by decide, by decide, by rfl, by decide⟩

def dfOk : List Row := [⟨"a", 0, "sci.med"⟩, ⟨"b", 1, "talk.politics"⟩]

/-- Witness for the amended C1 at a concrete DataFrame with two classes,
one retained. -/
theorem sample_data_balanced_witness :
    (1 : ℕ) ≤ 1 ∧ ClassConsistent dfOk ∧
      (∀ r ∈ dfOk, 1 ≤ (groupOf dfOk r.Label).length) ∧
      ∃ out, sample_data dfOk 1 "sci" = Except.ok out ∧
        out.length = 1 * retainedClassCount dfOk "sci" ∧
        (out.map ERow.EncodedLabel).toFinset = Finset.range (retainedClassCount dfOk "sci") ∧
        ∀ r1 ∈ out, ∀ r2 ∈ out,
          (r1.EncodedLabel < r2.EncodedLabel ↔ r1.ClassName < r2.ClassName) :=
  ⟨by decide, by unfold ClassConsistent; decide, by decide,
    sample_data_balanced (by decide) (by unfold ClassConsistent; decide) (by decide)⟩

/- ## Section 3: the classifier (`NewsGroupClassifier`)

`nn.Linear(nin, nout)` holds a weight matrix and a bias vector and computes
`W x + b`; `nn.Sequential(Linear, ReLU, Linear)` applies the three layers in
order; `forward` applies the sequential stack.  Floats are idealised as `ℚ`
(the spec treats logits as unbounded reals). -/

structure LinearParams (nin nout : ℕ) where
  weight : Matrix (Fin nout) (Fin nin) ℚ
  bias : Fin nout → ℚ

/-- The affine map of `nn.Linear`. -/
def linearForward {nin nout : ℕ} (p : LinearParams nin nout) (x : Fin nin → ℚ) :
    Fin nout → ℚ :=
  p.weight.mulVec x + p.bias

/-- Componentwise `nn.ReLU`. -/
def reluVec {n : ℕ} (x : Fin n → ℚ) : Fin n → ℚ := fun i => max (x i) 0

/-- The parameters of `NewsGroupClassifier`: two linear layers
(input → hidden, hidden → classes) with a ReLU between them. -/
structure NewsGroupClassifier (input_size hidden_size num_classes : ℕ) where
  fc1 : LinearParams input_size hidden_size
  fc2 : LinearParams hidden_size num_classes

/-- `forward`: apply the `nn.Sequential` stack in order. -/
def NewsGroupClassifier.forward {D H K : ℕ} (m : NewsGroupClassifier D H K)
    (x : Fin D → ℚ) : Fin K → ℚ :=
  linearForward m.fc2 (reluVec (linearForward m.fc1 x))

/-- C5: for every input vector, the forward pass computes exactly
`W2 · relu(W1 · x + b1) + b2` — two linear transformations with a
rectified-linear nonlinearity between them and nothing else. -/
theorem forward_eq_two_layer_relu {D H K : ℕ} (m : NewsGroupClassifier D H K)
    (x : Fin D → ℚ) (i : Fin K) :
    m.forward x i
      = (∑ j : Fin H, m.fc2.weight i j *
          max ((∑ j2 : Fin D, m.fc1.weight j j2 * x j2) + m.fc1.bias j) 0)
        + m.fc2.bias i := by
  unfold NewsGroupClassifier.forward linearForward reluVec
  simp [Matrix.mulVec, Matrix.dotProduct]

/- ### C9: softmax normalisation at inference

`predict_category` computes `nn.functional.softmax(output, dim=1)[0]` on the
forward logits.  `softmax` is a transcendental function of real logits, so
this part of the embedding lives in `ℝ` and is necessarily noncomputable. -/

noncomputable def softmax {K : ℕ} (z : Fin K → ℝ) : Fin K → ℝ :=
  fun i => Real.exp (z i) / ∑ j, Real.exp (z j)

/-- The probability vector printed by `predict_category`: softmax of the
classifier's logits on the embedded input. -/
noncomputable def predictProbs {D H K : ℕ} (m : NewsGroupClassifier D H K)
    (x : Fin D → ℚ) : Fin K → ℝ :=
  softmax (fun i => ((m.forward x i : ℚ) : ℝ))

theorem softmax_sum_one {K : ℕ} (hK : 0 < K) (z : Fin K → ℝ) :
    ∑ i, softmax z i = 1 := by
  unfold softmax
  rw [← Finset.sum_div]
  apply div_self
  have hpos : 0 < ∑ j, Real.exp (z j) := by
    apply Finset.sum_pos (fun j _ => Real.exp_pos (z j))
    exact ⟨⟨0, hK⟩, Finset.mem_univ _⟩
  exact ne_of_gt hpos

/-- C9: for every logit vector over `K > 0` classes produced at inference,
the class probabilities computed by `predict_category` sum exactly to 1
(over the reals; floating point only approximates this). -/
theorem predictProbs_sum_one {D H K : ℕ} (hK : 0 < K)
    (m : NewsGroupClassifier D H K) (x : Fin D → ℚ) :
    ∑ i, predictProbs m x i = 1 :=
  softmax_sum_one hK _

/-- A concrete one-dimensional classifier used by the closed witnesses. -/
def oneModel : NewsGroupClassifier 1 1 1 :=
  ⟨⟨Matrix.of fun _ _ => 1, fun _ => 0⟩, ⟨Matrix.of fun _ _ => 1, fun _ => 0⟩⟩

/-- Witness for C9 at a concrete model and input. -/
theorem predictProbs_sum_one_witness :
    (0 : ℕ) < 1 ∧ ∑ i, predictProbs oneModel (fun _ => 1) i = 1 :=
  ⟨by decide, predictProbs_sum_one (by decide) oneModel (fun _ => 1)⟩

/- ## Section 4: evaluation loop and inference determinism

`evaluate(model, test_loader, criterion, device)` iterates the batches under
`torch.no_grad()`: it moves the batch to the device, runs a forward pass,
computes the loss, and updates the local accumulators `total_loss`,
`correct`, `total`.  The embedding threads the full mutable state (the model
parameters together with the accumulators) through an explicit fold; the
loop body is transcribed from the Python body, which assigns only to the
accumulators.  `torch.max(outputs.data, 1)` takes, per row, the index of the
first maximal logit. -/

def argmaxAux : List ℚ → ℕ → ℕ → ℚ → ℕ
  | [], _, best, _ => best
  | v :: t, i, best, bv => if bv < v then argmaxAux t (i + 1) i v else argmaxAux t (i + 1) best bv

/-- Index of the first maximal entry (`torch.max(..., 1)` per row). -/
def torchArgmax : List ℚ → ℕ
  | [] => 0
  | v :: t => argmaxAux t 1 0 v

/-- The predicted class of a logit vector. -/
def predictedLabel {K : ℕ} (logits : Fin K → ℚ) : ℕ :=
  torchArgmax ((List.finRange K).map logits)

/-- The mutable state visible to the evaluation loop: the classifier
parameters plus the loop-local accumulators. -/
structure EvalState (D H K : ℕ) where
  params : NewsGroupClassifier D H K
  total_loss : ℚ
  correct : ℕ
  total : ℕ

/-- The per-row forward passes `outputs = model(inputs)` over one batch. -/
def batchOutputs {D H K : ℕ} (m : NewsGroupClassifier D H K)
    (batch : List ((Fin D → ℚ) × ℕ)) : List ((Fin K → ℚ) × ℕ) :=
  batch.map (fun q => (m.forward q.1, q.2))

/-- The `(predicted == labels).sum().item()` count over one batch. -/
def batchCorrect {K : ℕ} (outs : List ((Fin K → ℚ) × ℕ)) : ℕ :=
  (outs.filter (fun q => predictedLabel q.1 == q.2)).length

/-- One iteration of the `evaluate` batch loop. -/
def evalStep {D H K : ℕ} (criterion : List ((Fin K → ℚ) × ℕ) → ℚ)
    (st : EvalState D H K) (batch : List ((Fin D → ℚ) × ℕ)) : EvalState D H K :=
  let outs := batchOutputs st.params batch
  { st with
    total_loss := st.total_loss + criterion outs
    correct := st.correct + batchCorrect outs
    total := st.total + batch.length }

/-- Embedded `evaluate`: fold the batch loop from zeroed accumulators and
return the final state with `(average loss, accuracy)`. -/
def evaluate {D H K : ℕ} (m : NewsGroupClassifier D H K)
    (test_loader : List (List ((Fin D → ℚ) × ℕ)))
    (criterion : List ((Fin K → ℚ) × ℕ) → ℚ) : EvalState D H K × ℚ × ℚ :=
  let final := test_loader.foldl (evalStep criterion) ⟨m, 0, 0, 0⟩
  (final, final.total_loss / (test_loader.length : ℚ),
    (final.correct : ℚ) / (final.total : ℚ))

/-- C6: for every model, validation loader and loss criterion, `evaluate`
performs forward passes only: the classifier parameters threaded through
its loop state are unchanged at exit. -/
theorem evaluate_params_unchanged {D H K : ℕ} (m : NewsGroupClassifier D H K)
    (test_loader : List (List ((Fin D → ℚ) × ℕ)))
    (criterion : List ((Fin K → ℚ) × ℕ) → ℚ) :
    (evaluate m test_loader criterion).1.params = m := by
  unfold evaluate
  suffices h : ∀ st : EvalState D H K,
      (test_loader.foldl (evalStep criterion) st).params = st.params by
    exact h ⟨m, 0, 0, 0⟩
  intro st
  induction test_loader generalizing st with
  | nil => rfl
  | cons b bs ih => rw [List.foldl_cons, ih]; rfl

/- ### C8: determinism of inference

The notebook interleaves three kinds of operation on the live model:
training epochs (`train_epoch`, which mutates the parameters through the
optimizer), evaluation passes (`evaluate`), and predictions
(`predict_category`, an `eval()`-mode forward pass under `torch.no_grad()`).
The operations act on the parameter state as follows. -/

inductive TorchOp (D H K : ℕ) where
  | trainEpochOp (upd : NewsGroupClassifier D H K → NewsGroupClassifier D H K)
  | evalOp
  | predictOp (x : Fin D → ℚ)

def TorchOp.isTrainStep {D H K : ℕ} : TorchOp D H K → Bool
  | .trainEpochOp _ => true
  | _ => false

/-- Effect of one operation on the parameters, together with the logits it
returns (predictions only). -/
def runOp {D H K : ℕ} (m : NewsGroupClassifier D H K) :
    TorchOp D H K → NewsGroupClassifier D H K × Option (Fin K → ℚ)
  | .trainEpochOp upd => (upd m, none)
  | .evalOp => (m, none)
  | .predictOp x => (m, some (m.forward x))

def runOps {D H K : ℕ} (m : NewsGroupClassifier D H K) :
    List (TorchOp D H K) → NewsGroupClassifier D H K
  | [] => m
  | op :: ops => runOps (runOp m op).1 ops

theorem runOps_params_eq {D H K : ℕ} {m : NewsGroupClassifier D H K}
    {ops : List (TorchOp D H K)} (h : ∀ op ∈ ops, op.isTrainStep = false) :
    runOps m ops = m := by
  induction ops generalizing m with
  | nil => rfl
  | cons op ops ih =>
    have hop := h op (List.mem_cons_self op ops)
    have hrest : ∀ op2 ∈ ops, TorchOp.isTrainStep op2 = false :=
      fun op2 h2 => h op2 (List.mem_cons_of_mem op h2)
    cases op with
    | trainEpochOp upd => exact absurd hop (by simp [TorchOp.isTrainStep])
    | evalOp => exact ih hrest
    | predictOp x => exact ih hrest

/-- C8: for a fixed parameter snapshot and input embedding, two forward
passes with no training step between them return identical logit vectors:
inference is a deterministic function of the parameters and the input. -/
theorem predict_deterministic {D H K : ℕ} (m : NewsGroupClassifier D H K)
    (mid : List (TorchOp D H K)) (h : ∀ op ∈ mid, op.isTrainStep = false)
    (x : Fin D → ℚ) :
    (runOp (runOps m mid) (TorchOp.predictOp x)).2 = (runOp m (TorchOp.predictOp x)).2 := by
  rw [runOps_params_eq h]

/-- Witness for C8 with an evaluation pass between the two predictions. -/
theorem predict_deterministic_witness :
    (∀ op ∈ [TorchOp.evalOp (D := 1) (H := 1) (K := 1)], op.isTrainStep = false) ∧
    (runOp (runOps oneModel [TorchOp.evalOp]) (TorchOp.predictOp fun _ => 1)).2
      = (runOp oneModel (TorchOp.predictOp fun _ => 1)).2 :=
  ⟨by intro op hop; rw [List.mem_singleton] at hop; rw [hop]; rfl,
    predict_deterministic oneModel [TorchOp.evalOp]
      (by intro op hop; rw [List.mem_singleton] at hop; rw [hop]; rfl) (fun _ => 1)⟩

/- ## Section 5: the training loop with early stopping

The notebook's loop is

  `NUM_EPOCHS = 20`
  `PATIENCE = 5`
  `best_val_acc = 0`
  `for epoch in range(NUM_EPOCHS):`
  `    train_loss, train_acc = train_epoch(...)`
  `    val_loss, val_acc = evaluate(...)`
  `    if val_acc > best_val_acc:`
  `        best_val_acc = val_acc`
  `        best_model = model.state_dict()`
  `        patience = 0`
  `    else:`
  `        patience += 1`
  `        if patience > PATIENCE:`
  `            print("Early stopping..."); break`

Two facts of the source matter to the embedding.  First, `patience` is never
assigned before the loop: it is bound only in the improvement branch, so the
`patience += 1` of the else-branch raises `NameError` whenever no epoch has
improved yet; the state therefore carries `Option ℕ`.  Second,
`model.state_dict()` returns references to the live parameter tensors (it is
not a deep copy) and `best_model` is never passed to `load_state_dict`; the
model in use after the loop — the one `predict_category` receives, and the
value `best_model` denotes once training moved on — holds the final epoch's
parameters.  The state records `bestBound : Bool` for whether `best_model`
is bound; its dereferenced value at any time is the current `model`.

One epoch of training plus evaluation is abstracted by an epoch-indexed
update `train_upd : ℕ → P → P` over an arbitrary parameter-and-optimizer
state type `P`, and `val_acc_of : P → ℚ` is the (deterministic, by C6)
validation accuracy of a parameter state. -/

def PATIENCE_LIMIT : ℕ := 5

def NUM_EPOCHS : ℕ := 20

structure LoopState (P : Type) where
  model : P
  best_val_acc : ℚ
  patience : Option ℕ
  bestBound : Bool
  history : List ℚ

/-- One iteration of the epoch loop: train, evaluate, then the early-stop
bookkeeping; returns the new state and whether `break` was executed, or the
`NameError` of the uninitialised counter. -/
def runEpoch {P : Type} (train_upd : ℕ → P → P) (val_acc_of : P → ℚ) (epoch : ℕ)
    (st : LoopState P) : Except String (LoopState P × Bool) :=
  let m := train_upd epoch st.model
  let va := val_acc_of m
  if st.best_val_acc < va then
    Except.ok ({ model := m, best_val_acc := va, patience := some 0,
                 bestBound := true, history := st.history ++ [va] }, false)
  else
    match st.patience with
    | none => Except.error "NameError: name patience is not defined"
    | some p =>
      Except.ok ({ model := m, best_val_acc := st.best_val_acc, patience := some (p + 1),
                   bestBound := st.bestBound, history := st.history ++ [va] },
                 decide (PATIENCE_LIMIT < p + 1))

/-- The `for epoch in range(...)` loop from a given epoch index with the
given number of iterations remaining; returns the final state and the
number of epochs executed. -/
def runFrom {P : Type} (train_upd : ℕ → P → P) (val_acc_of : P → ℚ) :
    ℕ → ℕ → LoopState P → Except String (LoopState P × ℕ)
  | epoch, 0, st => Except.ok (st, epoch)
  | epoch, fuel + 1, st =>
    match runEpoch train_upd val_acc_of epoch st with
    | Except.error e => Except.error e
    | Except.ok (st1, brk) =>
      if brk then Except.ok (st1, epoch + 1)
      else runFrom train_upd val_acc_of (epoch + 1) fuel st1

/-- The whole training cell: `best_val_acc = 0`, `patience` and `best_model`
unbound, then the epoch loop over `range(NUM_EPOCHS)`. -/
def trainingLoop {P : Type} (train_upd : ℕ → P → P) (val_acc_of : P → ℚ)
    (init : P) : Except String (LoopState P × ℕ) :=
  runFrom train_upd val_acc_of 0 NUM_EPOCHS
    { model := init, best_val_acc := 0, patience := none,
      bestBound := false, history := [] }

/-- The loop executes at most `epoch + fuel` epochs when it returns. -/
theorem runFrom_count_le {P : Type} (train_upd : ℕ → P → P) (val_acc_of : P → ℚ) :
    ∀ (fuel epoch : ℕ) (st st2 : LoopState P) (e : ℕ),
      runFrom train_upd val_acc_of epoch fuel st = Except.ok (st2, e) →
      e ≤ epoch + fuel := by
  intro fuel
  induction fuel with
  | zero =>
    intro epoch st st2 e h
    unfold runFrom at h
    simp only [Except.ok.injEq, Prod.mk.injEq] at h
    omega
  | succ fuel ih =>
    intro epoch st st2 e h
    unfold runFrom at h
    cases hE : runEpoch train_upd val_acc_of epoch st with
    | error msg => rw [hE] at h; exact absurd h (by simp)
    | ok r =>
      rw [hE] at h
      rcases r with ⟨st1, brk⟩
      simp only at h
      by_cases hb : brk = true
      · rw [hb] at h
        simp only [if_true, Except.ok.injEq, Prod.mk.injEq] at h
        omega
      · rw [Bool.not_eq_true] at hb
        rw [hb] at h
        simp only [Bool.false_eq_true, if_false] at h
        have := ih (epoch + 1) st1 st2 e h
        omega

/-- The training loop never runs more than `NUM_EPOCHS` epochs. -/
theorem trainingLoop_max_epochs {P : Type} (train_upd : ℕ → P → P)
    (val_acc_of : P → ℚ) (init : P) {st : LoopState P} {e : ℕ}
    (h : trainingLoop train_upd val_acc_of init = Except.ok (st, e)) :
    e ≤ NUM_EPOCHS := by
  have := runFrom_count_le train_upd val_acc_of NUM_EPOCHS 0 _ st e h
  omega

/-- A concrete run for the loop: parameter state abstracted as a counter
that every training epoch advances by one. -/
def updInc : ℕ → ℕ → ℕ := fun _ p => p + 1

/-- A run whose validation accuracy is 0 at every epoch (every validation
prediction wrong). -/
def vaZero : ℕ → ℚ := fun _ => 0

/-- A run that reaches validation accuracy 1 with the parameters produced by
epoch 1 and accuracy 0 ever after. -/
def vaPeak : ℕ → ℚ := fun p => if p = 1 then 1 else 0

/-- C2 at the failing input: on a run whose first epoch does not improve
(validation accuracy 0, not above the initial `best_val_acc = 0`), the
else-branch executes `patience += 1` with `patience` never having been
assigned, and the loop dies with `NameError` at epoch 1 — it neither
increments a counter nor goes on to the patience/max-epoch test that the
claim describes.  (The max-epoch half of the claim does hold in general:
`trainingLoop_max_epochs`.) -/
theorem trainingLoop_uninitialized_patience_crash :
    trainingLoop updInc vaZero 0
      = Except.error "NameError: name patience is not defined" := by
  rfl

/-- C3 at the failing input: the run improves only at epoch 1 (accuracy 1,
parameter state 1) and early stopping fires after 7 epochs.  The model
retained at loop exit carries the final parameter state 7, not the
best-accuracy epoch's state 1, even though `best_model` was bound
(`bestBound = true`): `state_dict()` aliases the live tensors and is never
passed to `load_state_dict`, so no best-epoch snapshot survives to the end
of the run.  The retained model's accuracy (0) is strictly below the best
recorded accuracy (1) of the run's history. -/
theorem trainingLoop_best_model_not_restored :
    (trainingLoop updInc vaPeak 0).toOption.map
        (fun r => (r.1.model, r.1.best_val_acc, r.1.bestBound, r.1.history, r.2))
      = some (7, 1, true, [1, 0, 0, 0, 0, 0, 0], 7) ∧
    updInc 0 0 = 1 ∧ vaPeak 1 = 1 ∧ vaPeak 7 = 0 ∧
    ((0 : ℚ) < 1) ∧ ((7 : ℕ) ≠ 1) :=
  ⟨by rfl, by rfl, by rfl, by rfl, by decide, by decide⟩
